import Mathlib

/-!
# Verification of the Embedding & Retrieval Store (pdf-reasoner)

Shallow embedding of `src/embeddings.py` (`Doc2VecEmbeddings`) and
`src/vector_store.py` (`FAISSVectorStore`).

Modelling conventions:
* Python exceptions become `Except PyError`; a caught exception becomes a
  normal return, an uncaught one an `Except.error` result paired with the
  object state as mutated up to the raise point.
* `dict` (insertion ordered) becomes an association list whose insert
  replaces in place on an existing key and appends on a fresh key.
* gensim's stochastic `infer_vector` is replaced by a deterministic
  stand-in `inferVector` (the spec, §9 and the round-trip property, mandates
  a deterministic embedding stub for verification); all claims proved here
  are insensitive to the particular values it produces.
* The FAISS `IndexFlatL2` is the list of stored vectors; its `search`
  returns the indices sorted by ascending squared L2 distance, padded
  with `-1` entries when more neighbours are requested than stored.
* The file system (`data/faiss.index`, `data/vector_store_state.pkl`,
  `data/doc2vec_model`) becomes a `Disk` record; a missing file is `none`,
  an unreadable/corrupt one is `some (Except.error ())`.
-/

/-- A chunk, as stored in the registry: `(text, page_num)`. -/
abbrev Chunk := String × Nat

/-- An embedding vector (entries modelled as integers). -/
abbrev Emb := List Int

/-- Python exceptions that the modelled code can raise. -/
inductive PyError where
  /-- `ValueError("Model not trained. Call fit() first.")` from `embed`/`embed_batch`. -/
  | modelNotTrained
  /-- `RuntimeError` from gensim when training with an empty vocabulary. -/
  | emptyVocab
  /-- `IndexError` from a Python list subscript. -/
  | indexError
deriving DecidableEq, Repr

def isOkB {ε α : Type} : Except ε α → Bool
  | Except.ok _ => true
  | Except.error _ => false

/-! ## Text preprocessing (`Doc2VecEmbeddings._preprocess_text`)

`gensim.utils.simple_preprocess(text, deacc=True)`: lowercase, split into
maximal alphabetic runs, keep tokens of length 2..15. -/

/-- Maximal runs of alphabetic characters (accumulator holds the current
run, reversed). -/
def alphaRunsAux : List Char → List Char → List (List Char)
  | [], acc => if acc.isEmpty then [] else [acc.reverse]
  | c :: cs, acc =>
    if c.isAlpha then alphaRunsAux cs (c :: acc)
    else if acc.isEmpty then alphaRunsAux cs []
    else acc.reverse :: alphaRunsAux cs []

/-- `simple_preprocess`: tokens are lowercased alphabetic runs of length
2..15 (as character lists). -/
def simplePreprocess (s : String) : List (List Char) :=
  (alphaRunsAux (s.toList.map Char.toLower) []).filter
    (fun t => decide (2 ≤ t.length) && decide (t.length ≤ 15))

/-! ## The Doc2Vec model (`src/embeddings.py`) -/

/-- The state of a constructed `Doc2Vec` object: in this embedding a model
is fully determined by the corpus it was built on. -/
structure Doc2VecModel where
  corpus : List (List (List Char))
deriving DecidableEq, Repr

/-- Deterministic stand-in for gensim's stochastic `infer_vector` (see the
module docstring). -/
def inferVector (m : Doc2VecModel) (tokens : List (List Char)) : Emb :=
  [Int.ofNat tokens.length,
   Int.ofNat (tokens.foldl (fun a t => a + t.length) 0),
   Int.ofNat m.corpus.length]

/-- `min_count = 2`: the vocabulary kept by `build_vocab` is nonempty iff
some token occurs at least twice in the corpus. -/
def vocabNonempty (corpus : List (List (List Char))) : Bool :=
  (corpus.flatten).any (fun t => decide (2 ≤ (corpus.flatten).count t))

deriving instance DecidableEq for Except

/-- Persisted artifacts in the `data/` directory. -/
structure SavedState where
  metadata : List (String × List Chunk)
  doc_ids : List String
  filenames : List (String × String)
deriving DecidableEq, Repr

structure Disk where
  /-- `data/doc2vec_model` -/
  doc2vecModel : Option (Except Unit Doc2VecModel)
  /-- `data/faiss.index` -/
  faissIndex : Option (Except Unit (List Emb))
  /-- `data/vector_store_state.pkl` -/
  statePkl : Option (Except Unit SavedState)
deriving DecidableEq, Repr

def emptyDisk : Disk := ⟨none, none, none⟩

/-- The `Doc2VecEmbeddings` object; `model = none` models `self.model is None`. -/
structure Doc2VecEmbeddings where
  model : Option Doc2VecModel
deriving DecidableEq, Repr

/-- `Doc2VecEmbeddings.__init__` + `_load_model`: attempt to deserialize a
previously trained model; a failed load is caught and leaves `model = None`. -/
def Doc2VecEmbeddings.init (d : Disk) : Doc2VecEmbeddings :=
  match d.doc2vecModel with
  | some (Except.ok m) => { model := some m }
  | some (Except.error _) => { model := none }
  | none => { model := none }

/-- `Doc2VecEmbeddings.fit`: builds a new `Doc2Vec` object on the corpus
(`self.model = Doc2Vec(...)`; the assignment happens before training, so a
failing `train` still leaves the new object assigned), trains it —
raising when the vocabulary is empty — and on success persists it
(`_save_model`). -/
def Doc2VecEmbeddings.fit (_e : Doc2VecEmbeddings) (d : Disk) (texts : List String) :
    (Doc2VecEmbeddings × Disk) × Except PyError Unit :=
  let corpus := texts.map simplePreprocess
  if vocabNonempty corpus then
    (({ model := some ⟨corpus⟩ }, { d with doc2vecModel := some (Except.ok ⟨corpus⟩) }),
      Except.ok ())
  else
    (({ model := some ⟨corpus⟩ }, d), Except.error PyError.emptyVocab)

/-- `Doc2VecEmbeddings.embed`. -/
def Doc2VecEmbeddings.embed (e : Doc2VecEmbeddings) (text : String) : Except PyError Emb :=
  match e.model with
  | none => Except.error PyError.modelNotTrained
  | some m => Except.ok (inferVector m (simplePreprocess text))

/-- `Doc2VecEmbeddings.embed_batch`. -/
def Doc2VecEmbeddings.embed_batch (e : Doc2VecEmbeddings) (texts : List String) :
    Except PyError (List Emb) :=
  match e.model with
  | none => Except.error PyError.modelNotTrained
  | some m => Except.ok (texts.map (fun t => inferVector m (simplePreprocess t)))

/-! ## Association-list model of Python `dict` -/

def dictInsert {α : Type} (m : List (String × α)) (k : String) (v : α) :
    List (String × α) :=
  match m with
  | [] => [(k, v)]
  | (k', v') :: rest => if k' = k then (k, v) :: rest else (k', v') :: dictInsert rest k v

def dictFind {α : Type} (m : List (String × α)) (k : String) : Option α :=
  match m with
  | [] => none
  | (k', v') :: rest => if k' = k then some v' else dictFind rest k

def dictContains {α : Type} (m : List (String × α)) (k : String) : Bool :=
  (dictFind m k).isSome

/-! ## The vector store (`src/vector_store.py`) -/

structure FAISSVectorStore where
  embeddings : Doc2VecEmbeddings
  /-- the FAISS `IndexFlatL2` contents, in insertion order -/
  index : List Emb
  /-- `doc_id -> list of (chunk, page_num)` -/
  metadata : List (String × List Chunk)
  /-- maps FAISS index positions to doc_ids -/
  doc_ids : List String
  /-- `doc_id -> filename` -/
  filenames : List (String × String)
deriving DecidableEq, Repr

/-- `FAISSVectorStore.__init__` (the embeddings sub-object loads its own
persisted model during construction). -/
def freshInstance (d : Disk) : FAISSVectorStore :=
  { embeddings := Doc2VecEmbeddings.init d
    index := []
    metadata := []
    doc_ids := []
    filenames := [] }

/-- `FAISSVectorStore.exists` (`exists` is a Lean keyword, hence the name). -/
def FAISSVectorStore.existsDoc (st : FAISSVectorStore) (doc_id : String) : Bool :=
  dictContains st.metadata doc_id

/-- `FAISSVectorStore.get_filename`. -/
def FAISSVectorStore.get_filename (st : FAISSVectorStore) (doc_id : String) :
    Option String :=
  dictFind st.filenames doc_id

/-- The counting loop of `_get_doc_start_idx`: position of the first
occurrence, if any. -/
def docStartIdx (doc_id : String) : List String → Option Nat
  | [] => none
  | d :: ds => if d = doc_id then some 0 else (docStartIdx doc_id ds).map (· + 1)

/-- `FAISSVectorStore._get_doc_start_idx`: first index of `doc_id` in
`self.doc_ids`, or `0` when absent (the loop falls through to `return 0`). -/
def FAISSVectorStore._get_doc_start_idx (st : FAISSVectorStore) (doc_id : String) : Nat :=
  (docStartIdx doc_id st.doc_ids).getD 0

/-- `FAISSVectorStore._save_state`: overwrite both artifacts. -/
def FAISSVectorStore._save_state (st : FAISSVectorStore) (d : Disk) : Disk :=
  { d with
    faissIndex := some (Except.ok st.index)
    statePkl := some (Except.ok ⟨st.metadata, st.doc_ids, st.filenames⟩) }

/-- `FAISSVectorStore._load_state`: a `try` block that first reads the
FAISS index (if the file exists), then the pickled registry (if the file
exists); any raise is caught, leaving the fields assigned so far. Returns
the `True`/`False` success flag. -/
def FAISSVectorStore._load_state (st : FAISSVectorStore) (d : Disk) :
    FAISSVectorStore × Bool :=
  match d.faissIndex with
  | some (Except.error _) => (st, false)
  | some (Except.ok idx) =>
    let st := { st with index := idx }
    match d.statePkl with
    | some (Except.error _) => (st, false)
    | some (Except.ok s) =>
      ({ st with metadata := s.metadata, doc_ids := s.doc_ids, filenames := s.filenames },
        true)
    | none => (st, true)
  | none =>
    match d.statePkl with
    | some (Except.error _) => (st, false)
    | some (Except.ok s) =>
      ({ st with metadata := s.metadata, doc_ids := s.doc_ids, filenames := s.filenames },
        true)
    | none => (st, true)

/-- Module-level bootstrap: `vector_store = FAISSVectorStore()` followed by
`vector_store._load_state()`. -/
def startup (d : Disk) : FAISSVectorStore :=
  (FAISSVectorStore._load_state (freshInstance d) d).1

/-- `FAISSVectorStore.add_document`. Returns the mutated object (and disk)
together with the outcome; on an error the state is as mutated up to the
raise point. -/
def FAISSVectorStore.add_document (st : FAISSVectorStore) (d : Disk) (doc_id : String)
    (chunks_with_pages : List Chunk) (filename : String) :
    (FAISSVectorStore × Disk) × Except PyError Unit :=
  let st := { st with
    metadata := dictInsert st.metadata doc_id chunks_with_pages
    filenames := dictInsert st.filenames doc_id filename }
  let chunks := chunks_with_pages.map Prod.fst
  match
    (match st.embeddings.model with
     | none => st.embeddings.fit d chunks
     | some _ => ((st.embeddings, d), Except.ok ())) with
  | ((emb, d), Except.error e) => (({ st with embeddings := emb }, d), Except.error e)
  | ((emb, d), Except.ok ()) =>
    let st := { st with embeddings := emb }
    match st.embeddings.embed_batch chunks with
    | Except.error e => ((st, d), Except.error e)
    | Except.ok embs =>
      let st := { st with
        index := st.index ++ embs
        doc_ids := st.doc_ids ++ List.replicate chunks.length doc_id }
      ((st, st._save_state d), Except.ok ())

/-! ## FAISS flat-L2 search -/

/-- Squared L2 distance between two vectors. -/
def l2sq (a b : Emb) : Int :=
  ((a.zip b).map (fun p => (p.1 - p.2) * (p.1 - p.2))).sum

/-- Insert into a list sorted by `key`. -/
def insertByKey (key : Nat → Int) (i : Nat) : List Nat → List Nat
  | [] => [i]
  | j :: js => if key i ≤ key j then i :: j :: js else j :: insertByKey key i js

/-- Insertion sort by `key` (the tie order FAISS produces is unspecified;
any fixed order is a faithful model). -/
def sortByKey (key : Nat → Int) : List Nat → List Nat
  | [] => []
  | i :: is => insertByKey key i (sortByKey key is)

/-- `faiss.IndexFlatL2.search` (single query): the stored positions sorted
by ascending squared L2 distance to the query, truncated to `k`, padded
with `-1` when `k` exceeds the number of stored vectors. -/
def faissSearch (index : List Emb) (q : Emb) (k : Nat) : List Int :=
  (((sortByKey (fun i => l2sq q (index.getD i [])) (List.range index.length)).take k).map
      Int.ofNat)
    ++ List.replicate (k - index.length) (-1)

/-- A Python list subscript with a possibly negative index (negative
indices address from the end; out of range raises `IndexError`). -/
def pyGet {α : Type} (l : List α) (i : Int) : Option α :=
  if 0 ≤ i then l.get? i.toNat
  else if 0 ≤ i + l.length then l.get? (i + l.length).toNat
  else none

/-- The filtering loop of `FAISSVectorStore.search`: walk the ranked
candidates, keep positions tagged `doc_id`, dedupe on chunk text, stop at
`k` collected. -/
def collectLoop (tags : List String) (meta : List Chunk) (start : Nat)
    (doc_id : String) (k : Nat) :
    List Int → List Chunk → List String → Except PyError (List Chunk)
  | [], results, _ => Except.ok results
  | idx :: rest, results, seen =>
    if 0 ≤ idx ∧ idx < (tags.length : Int) then
      if tags.getD idx.toNat "" = doc_id then
        match pyGet meta (idx - (start : Int)) with
        | none => Except.error PyError.indexError
        | some c =>
          if c.1 ∈ seen then collectLoop tags meta start doc_id k rest results seen
          else if k ≤ results.length + 1 then Except.ok (results ++ [c])
          else collectLoop tags meta start doc_id k rest (results ++ [c]) (c.1 :: seen)
      else collectLoop tags meta start doc_id k rest results seen
    else collectLoop tags meta start doc_id k rest results seen

/-- The query embedding `search` computes (meaningful only when the model
is trained; `search` raises before using it otherwise). -/
def queryEmbedding (st : FAISSVectorStore) (q : String) : Emb :=
  match st.embeddings.model with
  | some m => inferVector m (simplePreprocess q)
  | none => []

/-- `FAISSVectorStore.search`. -/
def FAISSVectorStore.search (st : FAISSVectorStore) (query : String) (doc_id : String)
    (k : Nat) : Except PyError (List Chunk) :=
  if st.existsDoc doc_id = false then Except.ok []
  else
    match st.embeddings.embed query with
    | Except.error e => Except.error e
    | Except.ok qe =>
      let ranked := faissSearch st.index qe st.doc_ids.length
      collectLoop st.doc_ids ((dictFind st.metadata doc_id).getD [])
        (st._get_doc_start_idx doc_id) doc_id k ranked [] []

/-! ## Ingestion traces -/

/-- One `add_document` call. -/
structure AddCall where
  doc_id : String
  chunks : List Chunk
  filename : String
deriving DecidableEq, Repr

/-- Run a sequence of `add_document` calls (state is threaded through even
past a raising call, as a driver catching exceptions would); the boolean
records whether every call succeeded. -/
def runAdds : FAISSVectorStore × Disk → List AddCall → (FAISSVectorStore × Disk) × Bool
  | sd, [] => (sd, true)
  | sd, c :: rest =>
    let step := FAISSVectorStore.add_document sd.1 sd.2 c.doc_id c.chunks c.filename
    let next := runAdds step.1 rest
    (next.1, isOkB step.2 && next.2)

/-- The store obtained by booting on an empty `data/` directory and running
`calls`. -/
def finalSD (calls : List AddCall) : (FAISSVectorStore × Disk) × Bool :=
  runAdds (startup emptyDisk, emptyDisk) calls

def finalStore (calls : List AddCall) : FAISSVectorStore := (finalSD calls).1.1

/-- Total number of chunks registered in the metadata dict. -/
def sumChunks (m : List (String × List Chunk)) : Nat :=
  (m.map (fun p => p.2.length)).sum

/-- The tag sequence induced by the registry, in ingestion order. -/
def tagsOf (m : List (String × List Chunk)) : List String :=
  m.flatMap (fun p => List.replicate p.2.length p.1)

/-! ## Dictionary lemmas -/

lemma dictFind_insert_self {α : Type} (m : List (String × α)) (k : String) (v : α) :
    dictFind (dictInsert m k v) k = some v := by
  induction m with
  | nil => simp [dictInsert, dictFind]
  | cons p rest ih =>
    obtain ⟨k', v'⟩ := p
    by_cases h : k' = k <;> simp [dictInsert, dictFind, h, ih]

lemma dictFind_insert_ne {α : Type} (m : List (String × α)) (k k' : String) (v : α)
    (h : k' ≠ k) : dictFind (dictInsert m k v) k' = dictFind m k' := by
  induction m with
  | nil => simp [dictInsert, dictFind, Ne.symm h]
  | cons p rest ih =>
    obtain ⟨k₀, v₀⟩ := p
    by_cases h0 : k₀ = k
    · subst h0
      simp [dictInsert, dictFind, Ne.symm h]
    · by_cases h1 : k₀ = k' <;> simp [dictInsert, dictFind, h0, h1, h, ih]

lemma dictInsert_of_find_none {α : Type} (m : List (String × α)) (k : String) (v : α)
    (h : dictFind m k = none) : dictInsert m k v = m ++ [(k, v)] := by
  induction m with
  | nil => simp [dictInsert]
  | cons p rest ih =>
    obtain ⟨k₀, v₀⟩ := p
    by_cases h0 : k₀ = k
    · simp [dictFind, h0] at h
    · simp [dictFind, h0] at h
      simp [dictInsert, h0, ih h]

lemma dictFind_none_iff {α : Type} (m : List (String × α)) (k : String) :
    dictFind m k = none ↔ k ∉ m.map Prod.fst := by
  induction m with
  | nil => simp [dictFind]
  | cons p rest ih =>
    obtain ⟨k₀, v₀⟩ := p
    by_cases h0 : k₀ = k
    · subst h0; simp [dictFind]
    · simp [dictFind, h0, ih, Ne.symm h0]

lemma sumChunks_append_single (m : List (String × List Chunk)) (k : String)
    (v : List Chunk) : sumChunks (m ++ [(k, v)]) = sumChunks m + v.length := by
  simp [sumChunks]

lemma tagsOf_append_single (m : List (String × List Chunk)) (k : String)
    (v : List Chunk) :
    tagsOf (m ++ [(k, v)]) = tagsOf m ++ List.replicate v.length k := by
  simp [tagsOf]

/-! ## `add_document` case lemmas -/

lemma add_document_metadata (st : FAISSVectorStore) (d : Disk) (id : String)
    (cwp : List Chunk) (fn : String) :
    (st.add_document d id cwp fn).1.1.metadata = dictInsert st.metadata id cwp := by
  unfold FAISSVectorStore.add_document
  cases hm : st.embeddings.model with
  | none =>
    by_cases hv : vocabNonempty (List.map (simplePreprocess ∘ Prod.fst) cwp) = true <;>
      simp [Doc2VecEmbeddings.fit, Doc2VecEmbeddings.embed_batch, hm, hv]
  | some m => simp [Doc2VecEmbeddings.embed_batch, hm]

lemma add_document_filenames (st : FAISSVectorStore) (d : Disk) (id : String)
    (cwp : List Chunk) (fn : String) :
    (st.add_document d id cwp fn).1.1.filenames = dictInsert st.filenames id fn := by
  unfold FAISSVectorStore.add_document
  cases hm : st.embeddings.model with
  | none =>
    by_cases hv : vocabNonempty (List.map (simplePreprocess ∘ Prod.fst) cwp) = true <;>
      simp [Doc2VecEmbeddings.fit, Doc2VecEmbeddings.embed_batch, hm, hv]
  | some m => simp [Doc2VecEmbeddings.embed_batch, hm]

lemma add_document_ok (st : FAISSVectorStore) (d : Disk) (id : String)
    (cwp : List Chunk) (fn : String)
    (h : (st.add_document d id cwp fn).2 = Except.ok ()) :
    ∃ m, (st.add_document d id cwp fn).1.1.embeddings.model = some m ∧
      (st.add_document d id cwp fn).1.1.index
        = st.index ++ (cwp.map Prod.fst).map (fun t => inferVector m (simplePreprocess t)) ∧
      (st.add_document d id cwp fn).1.1.doc_ids
        = st.doc_ids ++ List.replicate cwp.length id ∧
      (st.add_document d id cwp fn).1.2.faissIndex
        = some (Except.ok (st.add_document d id cwp fn).1.1.index) ∧
      (st.add_document d id cwp fn).1.2.statePkl
        = some (Except.ok ⟨(st.add_document d id cwp fn).1.1.metadata,
            (st.add_document d id cwp fn).1.1.doc_ids,
            (st.add_document d id cwp fn).1.1.filenames⟩) ∧
      ((st.embeddings.model = some m ∧
          (st.add_document d id cwp fn).1.2.doc2vecModel = d.doc2vecModel) ∨
        (st.add_document d id cwp fn).1.2.doc2vecModel = some (Except.ok m)) := by
  unfold FAISSVectorStore.add_document
  cases hm : st.embeddings.model with
  | none =>
    by_cases hv : vocabNonempty (List.map (simplePreprocess ∘ Prod.fst) cwp) = true
    · refine ⟨⟨List.map (simplePreprocess ∘ Prod.fst) cwp⟩, ?_⟩
      simp [Doc2VecEmbeddings.fit, Doc2VecEmbeddings.embed_batch, hm, hv,
        FAISSVectorStore._save_state]
    · exfalso
      revert h
      unfold FAISSVectorStore.add_document
      simp [Doc2VecEmbeddings.fit, Doc2VecEmbeddings.embed_batch, hm, hv]
  | some m =>
    refine ⟨m, ?_⟩
    simp [Doc2VecEmbeddings.embed_batch, hm, FAISSVectorStore._save_state]

lemma add_document_error (st : FAISSVectorStore) (d : Disk) (id : String)
    (cwp : List Chunk) (fn : String) (e : PyError)
    (h : (st.add_document d id cwp fn).2 = Except.error e) :
    (st.add_document d id cwp fn).1.1.index = st.index ∧
    (st.add_document d id cwp fn).1.1.doc_ids = st.doc_ids ∧
    (st.add_document d id cwp fn).1.2 = d := by
  revert h
  unfold FAISSVectorStore.add_document
  cases hm : st.embeddings.model with
  | none =>
    by_cases hv : vocabNonempty (List.map (simplePreprocess ∘ Prod.fst) cwp) = true <;>
      simp [Doc2VecEmbeddings.fit, Doc2VecEmbeddings.embed_batch, hm, hv]
  | some m => simp [Doc2VecEmbeddings.embed_batch, hm]

lemma add_document_model_some (st : FAISSVectorStore) (d : Disk) (id : String)
    (cwp : List Chunk) (fn : String) (m : Doc2VecModel)
    (hm : st.embeddings.model = some m) :
    (st.add_document d id cwp fn).1.1.embeddings.model = some m ∧
    (st.add_document d id cwp fn).2 = Except.ok () := by
  unfold FAISSVectorStore.add_document
  simp [Doc2VecEmbeddings.embed_batch, hm]

lemma add_document_ok_of_vocab (st : FAISSVectorStore) (d : Disk) (id : String)
    (cwp : List Chunk) (fn : String)
    (hv : vocabNonempty (List.map (simplePreprocess ∘ Prod.fst) cwp) = true) :
    (st.add_document d id cwp fn).2 = Except.ok () := by
  unfold FAISSVectorStore.add_document
  cases hm : st.embeddings.model with
  | none => simp [Doc2VecEmbeddings.fit, Doc2VecEmbeddings.embed_batch, hm, hv]
  | some m => simp [Doc2VecEmbeddings.embed_batch, hm]

/-- **C8**: immediately after a successful
`add_document(doc_id, chunks, filename)`, `exists(doc_id)` returns `true`
and `get_filename(doc_id)` returns the stored filename. -/
theorem C8_add_document_registers (st : FAISSVectorStore) (d : Disk) (id : String)
    (cwp : List Chunk) (fn : String)
    (_h : (st.add_document d id cwp fn).2 = Except.ok ()) :
    (st.add_document d id cwp fn).1.1.existsDoc id = true ∧
    (st.add_document d id cwp fn).1.1.get_filename id = some fn := by
  constructor
  · simp [FAISSVectorStore.existsDoc, dictContains, add_document_metadata,
      dictFind_insert_self]
  · simp [FAISSVectorStore.get_filename, add_document_filenames, dictFind_insert_self]

theorem C8_witness :
    ((startup emptyDisk).add_document emptyDisk "A" [("alpha beta alpha beta", 1)]
        "a.pdf").2 = Except.ok () ∧
    (((startup emptyDisk).add_document emptyDisk "A" [("alpha beta alpha beta", 1)]
        "a.pdf").1.1.existsDoc "A" = true ∧
      ((startup emptyDisk).add_document emptyDisk "A" [("alpha beta alpha beta", 1)]
        "a.pdf").1.1.get_filename "A" = some "a.pdf") :=
  ⟨by decide, C8_add_document_registers (startup emptyDisk) emptyDisk "A"
    [("alpha beta alpha beta", 1)] "a.pdf" (by decide)⟩

/-- **C6**: `embed` and `embed_batch` fail with the model-not-trained error
iff the model is `Untrained` (`self.model is None`); when trained,
`embed_batch` returns exactly one embedding per input text, in input
order. -/
theorem C6_embed_errors (e : Doc2VecEmbeddings) (t : String) (ts : List String) :
    ((∃ err, e.embed t = Except.error err) ↔ e.model = none) ∧
    (e.embed t = Except.error PyError.modelNotTrained ↔ e.model = none) ∧
    ((∃ err, e.embed_batch ts = Except.error err) ↔ e.model = none) ∧
    (e.embed_batch ts = Except.error PyError.modelNotTrained ↔ e.model = none) ∧
    (∀ m, e.model = some m →
      e.embed_batch ts
        = Except.ok (ts.map fun s => inferVector m (simplePreprocess s))) := by
  obtain ⟨mo⟩ := e
  cases mo <;> simp [Doc2VecEmbeddings.embed, Doc2VecEmbeddings.embed_batch]

theorem C6_witness :
    Doc2VecEmbeddings.embed_batch ⟨some ⟨[[['a', 'b']]]⟩⟩ ["alpha beta", "gamma"]
      = Except.ok (["alpha beta", "gamma"].map fun s =>
          inferVector ⟨[[['a', 'b']]]⟩ (simplePreprocess s)) ∧
    (Doc2VecEmbeddings.embed ⟨none⟩ "q" = Except.error PyError.modelNotTrained ↔
      (⟨none⟩ : Doc2VecEmbeddings).model = none) :=
  ⟨(C6_embed_errors ⟨some ⟨[[['a', 'b']]]⟩⟩ "q" ["alpha beta", "gamma"]).2.2.2.2
      ⟨[[['a', 'b']]]⟩ rfl,
    (C6_embed_errors ⟨none⟩ "q" []).2.1⟩

/-- **C5 counterexample**: `fit` on an already-`Trained` model is *not* a
no-op — it builds and trains a fresh model on the new texts, replacing the
model and its vocabulary. -/
theorem C5_counterexample :
    (Doc2VecEmbeddings.fit ⟨some ⟨[[['a', 'a'], ['a', 'a']]]⟩⟩ emptyDisk
        ["bb cc bb cc"]).1.1.model
      ≠ (⟨some ⟨[[['a', 'a'], ['a', 'a']]]⟩⟩ : Doc2VecEmbeddings).model := by
  decide

/-- **C5 (amended)**: `fit` itself retrains unconditionally, but
`add_document` invokes it only when the model is `Untrained`
(`if not self.embeddings.model`), so across any sequence of ingestions a
once-`Trained` model is never replaced: the `Untrained → Trained`
transition happens at most once per process lifetime. -/
theorem C5_amended_fit_once (calls : List AddCall) (st : FAISSVectorStore) (d : Disk)
    (m : Doc2VecModel) (hm : st.embeddings.model = some m) :
    (runAdds (st, d) calls).1.1.embeddings.model = some m := by
  induction calls generalizing st d with
  | nil => simpa [runAdds]
  | cons c rest ih =>
    simp only [runAdds]
    exact ih _ _ ((add_document_model_some st d c.doc_id c.chunks c.filename m hm).1)

theorem C5_witness :
    (runAdds (⟨⟨some ⟨[]⟩⟩, [], [], [], []⟩, emptyDisk)
        [⟨"A", [("xx yy xx yy", 1)], "a.pdf"⟩]).1.1.embeddings.model = some ⟨[]⟩ :=
  C5_amended_fit_once [⟨"A", [("xx yy xx yy", 1)], "a.pdf"⟩]
    ⟨⟨some ⟨[]⟩⟩, [], [], [], []⟩ emptyDisk ⟨[]⟩ rfl

/-- **C10**: `add_document` writes chunk metadata and filename into the
registry before training/embedding; if that stage raises, the registry is
left mutated (`exists` is true, the filename is recorded) while index and
tag sequence are untouched, so the index/registry length equality is
broken — ingestion is not atomic on error. -/
theorem C10_not_atomic (st : FAISSVectorStore) (d : Disk) (id : String)
    (cwp : List Chunk) (fn : String) (e : PyError)
    (hfresh : dictFind st.metadata id = none)
    (hlen : st.index.length = sumChunks st.metadata)
    (hne : cwp ≠ [])
    (herr : (st.add_document d id cwp fn).2 = Except.error e) :
    (st.add_document d id cwp fn).1.1.existsDoc id = true ∧
    (st.add_document d id cwp fn).1.1.get_filename id = some fn ∧
    (st.add_document d id cwp fn).1.1.index = st.index ∧
    (st.add_document d id cwp fn).1.1.doc_ids = st.doc_ids ∧
    (st.add_document d id cwp fn).1.1.index.length
      ≠ sumChunks (st.add_document d id cwp fn).1.1.metadata := by
  obtain ⟨hidx, hdocs, _⟩ := add_document_error st d id cwp fn e herr
  refine ⟨?_, ?_, hidx, hdocs, ?_⟩
  · simp [FAISSVectorStore.existsDoc, dictContains, add_document_metadata,
      dictFind_insert_self]
  · simp [FAISSVectorStore.get_filename, add_document_filenames, dictFind_insert_self]
  · rw [hidx, add_document_metadata, dictInsert_of_find_none _ _ _ hfresh,
      sumChunks_append_single, hlen]
    have hpos : 0 < cwp.length := List.length_pos.mpr hne
    omega

theorem C10_witness :
    ((startup emptyDisk).add_document emptyDisk "A" [("x", 1)] "a.pdf").2
        = Except.error PyError.emptyVocab ∧
    (((startup emptyDisk).add_document emptyDisk "A" [("x", 1)] "a.pdf").1.1.existsDoc
        "A" = true ∧
      ((startup emptyDisk).add_document emptyDisk "A" [("x", 1)]
        "a.pdf").1.1.get_filename "A" = some "a.pdf" ∧
      ((startup emptyDisk).add_document emptyDisk "A" [("x", 1)] "a.pdf").1.1.index
        = (startup emptyDisk).index ∧
      ((startup emptyDisk).add_document emptyDisk "A" [("x", 1)] "a.pdf").1.1.doc_ids
        = (startup emptyDisk).doc_ids ∧
      ((startup emptyDisk).add_document emptyDisk "A" [("x", 1)]
          "a.pdf").1.1.index.length
        ≠ sumChunks ((startup emptyDisk).add_document emptyDisk "A" [("x", 1)]
            "a.pdf").1.1.metadata) :=
  ⟨by decide, C10_not_atomic (startup emptyDisk) emptyDisk "A" [("x", 1)] "a.pdf"
    PyError.emptyVocab (by decide) (by decide) (by decide) (by decide)⟩

/-! ## C7: unknown doc_id -/

lemma runAdds_find_untouched (calls : List AddCall) (st : FAISSVectorStore) (d : Disk)
    (id : String) (hid : id ∉ calls.map AddCall.doc_id) :
    dictFind (runAdds (st, d) calls).1.1.metadata id = dictFind st.metadata id ∧
    dictFind (runAdds (st, d) calls).1.1.filenames id = dictFind st.filenames id := by
  induction calls generalizing st d with
  | nil => simp [runAdds]
  | cons c rest ih =>
    simp only [List.map_cons, List.mem_cons] at hid
    push_neg at hid
    obtain ⟨hne, hrest⟩ := hid
    have h1 : dictFind
        (FAISSVectorStore.add_document st d c.doc_id c.chunks c.filename).1.1.metadata id
        = dictFind st.metadata id := by
      rw [add_document_metadata]; exact dictFind_insert_ne _ _ _ _ hne
    have h2 : dictFind
        (FAISSVectorStore.add_document st d c.doc_id c.chunks c.filename).1.1.filenames id
        = dictFind st.filenames id := by
      rw [add_document_filenames]; exact dictFind_insert_ne _ _ _ _ hne
    obtain ⟨ih1, ih2⟩ := ih
      (FAISSVectorStore.add_document st d c.doc_id c.chunks c.filename).1.1
      (FAISSVectorStore.add_document st d c.doc_id c.chunks c.filename).1.2 hrest
    simp only [runAdds]
    exact ⟨ih1.trans h1, ih2.trans h2⟩

lemma search_of_not_exists (st : FAISSVectorStore) (q id : String) (k : Nat)
    (h : st.existsDoc id = false) : st.search q id k = Except.ok [] := by
  simp [FAISSVectorStore.search, h]

lemma startup_emptyDisk : startup emptyDisk = freshInstance emptyDisk := rfl

/-- **C7**: for a `doc_id` never passed to `add_document`, `exists` is
`false`, `get_filename` is `none`, and `search` returns an empty sequence;
none of them raises. -/
theorem C7_unknown_doc (calls : List AddCall) (q id : String) (k : Nat)
    (hid : id ∉ calls.map AddCall.doc_id) :
    (finalStore calls).existsDoc id = false ∧
    (finalStore calls).get_filename id = none ∧
    (finalStore calls).search q id k = Except.ok [] := by
  obtain ⟨h1, h2⟩ := runAdds_find_untouched calls (startup emptyDisk) emptyDisk id hid
  have hfind : dictFind (finalStore calls).metadata id = none := by
    rw [finalStore, finalSD, h1, startup_emptyDisk]; rfl
  have hex : (finalStore calls).existsDoc id = false := by
    simp [FAISSVectorStore.existsDoc, dictContains, hfind]
  refine ⟨hex, ?_, search_of_not_exists _ _ _ _ hex⟩
  rw [FAISSVectorStore.get_filename, finalStore, finalSD, h2, startup_emptyDisk]; rfl

theorem C7_witness :
    "B" ∉ ([⟨"A", [("alpha beta alpha beta", 1)], "a.pdf"⟩] :
        List AddCall).map AddCall.doc_id ∧
    ((finalStore [⟨"A", [("alpha beta alpha beta", 1)], "a.pdf"⟩]).existsDoc "B"
        = false ∧
      (finalStore [⟨"A", [("alpha beta alpha beta", 1)], "a.pdf"⟩]).get_filename "B"
        = none ∧
      (finalStore [⟨"A", [("alpha beta alpha beta", 1)], "a.pdf"⟩]).search "xx" "B" 3
        = Except.ok []) :=
  ⟨by decide, C7_unknown_doc [⟨"A", [("alpha beta alpha beta", 1)], "a.pdf"⟩] "xx" "B" 3
    (by decide)⟩

/-! ## C9: load on corrupt or missing persisted state -/

/-- The registry artifact is missing or fails to deserialize. -/
def pklFailed (d : Disk) : Prop :=
  d.statePkl = none ∨ d.statePkl = some (Except.error ())

/-- The FAISS index artifact is missing or fails to deserialize. -/
def idxFailed (d : Disk) : Prop :=
  d.faissIndex = none ∨ d.faissIndex = some (Except.error ())

/-- A disk with a readable one-vector FAISS index and a corrupt registry
pickle. -/
def corruptRegistryDisk : Disk :=
  { doc2vecModel := none
    faissIndex := some (Except.ok [[1]])
    statePkl := some (Except.error ()) }

/-- **C9 counterexample**: with a readable FAISS index artifact and a
corrupt registry pickle, startup `load()` does *not* yield an empty index —
the loaded vectors stay while the registry is empty, contradicting the
claimed fresh empty in-memory state. -/
theorem C9_counterexample :
    (startup corruptRegistryDisk).index ≠ [] ∧
    (startup corruptRegistryDisk).metadata = [] := by
  decide

/-- **C9 (amended)**: `load()` never propagates (all failures are caught
inside `_load_state`); if the registry artifact is missing or corrupt the
registry is left empty, and if the index artifact also fails the state is
fully fresh — but a readable index artifact next to a corrupt registry
keeps its vectors (the counterexample). A subsequent `add_document` whose
chunks yield a nonempty vocabulary succeeds normally. -/
theorem C9_amended_load_degrades (d : Disk) (id : String) (cwp : List Chunk)
    (fn : String) (hp : pklFailed d) :
    ((startup d).metadata = [] ∧ (startup d).doc_ids = [] ∧
      (startup d).filenames = []) ∧
    (idxFailed d → startup d = freshInstance d) ∧
    (vocabNonempty (List.map (simplePreprocess ∘ Prod.fst) cwp) = true →
      ((startup d).add_document d id cwp fn).2 = Except.ok ()) := by
  refine ⟨?_, ?_, fun hv => add_document_ok_of_vocab _ _ _ _ _ hv⟩
  · obtain ⟨dm, fi, sp⟩ := d
    rcases hp with hp | hp <;> simp only at hp <;> subst hp <;>
      rcases fi with _ | (u | v) <;>
        simp [startup, FAISSVectorStore._load_state, freshInstance]
  · intro hi
    obtain ⟨dm, fi, sp⟩ := d
    rcases hi with hi | hi <;> simp only at hi <;> subst hi <;>
      rcases hp with hp | hp <;> simp only at hp <;> subst hp <;>
      simp [startup, FAISSVectorStore._load_state, freshInstance]

theorem C9_witness :
    pklFailed corruptRegistryDisk ∧
    (((startup corruptRegistryDisk).metadata = [] ∧
        (startup corruptRegistryDisk).doc_ids = [] ∧
        (startup corruptRegistryDisk).filenames = []) ∧
      (idxFailed corruptRegistryDisk → startup corruptRegistryDisk
        = freshInstance corruptRegistryDisk) ∧
      (vocabNonempty (List.map (simplePreprocess ∘ Prod.fst)
            [(("alpha beta alpha beta" : String), (1 : Nat))]) = true →
        ((startup corruptRegistryDisk).add_document corruptRegistryDisk "A"
            [("alpha beta alpha beta", 1)] "a.pdf").2 = Except.ok ())) :=
  ⟨Or.inr rfl, C9_amended_load_degrades corruptRegistryDisk "A"
    [("alpha beta alpha beta", 1)] "a.pdf" (Or.inr rfl)⟩

/-! ## Store invariants (C3) -/

/-- The structural invariant maintained by successful ingestions of fresh
doc_ids: index, tag sequence and registry stay aligned, the tag sequence
is exactly the registry's blocks in ingestion order, keys are unique, and
a nonempty registry implies a trained model. -/
def StoreInv (st : FAISSVectorStore) : Prop :=
  st.index.length = st.doc_ids.length ∧
  st.doc_ids = tagsOf st.metadata ∧
  (st.metadata.map Prod.fst).Nodup ∧
  (st.metadata ≠ [] → st.embeddings.model.isSome = true)

lemma isOkB_eq_true_iff {ε : Type} (r : Except ε Unit) :
    isOkB r = true ↔ r = Except.ok () := by
  cases r with
  | ok u => cases u; simp [isOkB]
  | error e => simp [isOkB]

lemma tagsOf_length (m : List (String × List Chunk)) :
    (tagsOf m).length = sumChunks m := by
  induction m with
  | nil => rfl
  | cons p rest ih =>
    have h1 : (tagsOf (p :: rest)).length = p.2.length + (tagsOf rest).length := by
      simp [tagsOf]
    have h2 : sumChunks (p :: rest) = p.2.length + sumChunks rest := by
      simp [sumChunks]
    rw [h1, h2, ih]

lemma StoreInv_step (st : FAISSVectorStore) (d : Disk) (id : String) (cwp : List Chunk)
    (fn : String) (hinv : StoreInv st) (hfresh : dictFind st.metadata id = none)
    (hok : (st.add_document d id cwp fn).2 = Except.ok ()) :
    StoreInv (st.add_document d id cwp fn).1.1 ∧
    (∀ id', id' ≠ id →
      dictFind (st.add_document d id cwp fn).1.1.metadata id'
        = dictFind st.metadata id') := by
  obtain ⟨hlen, htags, hnd, _⟩ := hinv
  obtain ⟨m, hm', hidx, hdocs, -, -, -⟩ := add_document_ok st d id cwp fn hok
  have hmeta := add_document_metadata st d id cwp fn
  refine ⟨⟨?_, ?_, ?_, ?_⟩, ?_⟩
  · rw [hidx, hdocs]; simp [hlen]
  · rw [hdocs, hmeta, dictInsert_of_find_none _ _ _ hfresh, tagsOf_append_single, htags]
  · rw [hmeta, dictInsert_of_find_none _ _ _ hfresh]
    simp only [List.map_append, List.map_cons, List.map_nil]
    simp [List.nodup_append, hnd, (dictFind_none_iff st.metadata id).mp hfresh]
  · intro _; rw [hm']; rfl
  · intro id' hne; rw [hmeta]; exact dictFind_insert_ne _ _ _ _ hne

lemma runAdds_StoreInv (calls : List AddCall) (st : FAISSVectorStore) (d : Disk)
    (hinv : StoreInv st)
    (hok : (runAdds (st, d) calls).2 = true)
    (hnd : (calls.map AddCall.doc_id).Nodup)
    (hfresh : ∀ c ∈ calls, dictFind st.metadata c.doc_id = none) :
    StoreInv (runAdds (st, d) calls).1.1 := by
  induction calls generalizing st d with
  | nil => simpa [runAdds]
  | cons c rest ih =>
    simp only [runAdds, Bool.and_eq_true] at hok
    obtain ⟨hok1, hok2⟩ := hok
    rw [isOkB_eq_true_iff] at hok1
    obtain ⟨hinv', hpres⟩ :=
      StoreInv_step st d c.doc_id c.chunks c.filename hinv
        (hfresh c (List.mem_cons_self c rest)) hok1
    simp only [List.map_cons, List.nodup_cons] at hnd
    obtain ⟨hhead, htail⟩ := hnd
    simp only [runAdds]
    refine ih _ _ hinv' hok2 htail ?_
    intro c' hc'
    have hne : c'.doc_id ≠ c.doc_id := by
      intro he
      exact hhead (he ▸ List.mem_map_of_mem AddCall.doc_id hc')
    rw [hpres c'.doc_id hne]
    exact hfresh c' (List.mem_cons_of_mem c hc')

lemma StoreInv_initial : StoreInv (startup emptyDisk) := by
  rw [startup_emptyDisk]
  refine ⟨rfl, rfl, ?_, ?_⟩ <;> simp [freshInstance, tagsOf]

lemma mem_tagsOf (m : List (String × List Chunk)) (x : String) (hx : x ∈ tagsOf m) :
    x ∈ m.map Prod.fst := by
  induction m with
  | nil => simp [tagsOf] at hx
  | cons p rest ih =>
    simp only [tagsOf, List.flatMap_cons, List.mem_append] at hx
    rcases hx with hx | hx
    · simp [List.eq_of_mem_replicate hx]
    · exact List.mem_cons_of_mem _ (ih hx)

lemma tags_block (m : List (String × List Chunk)) (hnd : (m.map Prod.fst).Nodup)
    (id : String) (cs : List Chunk) (hfind : dictFind m id = some cs) :
    ∃ s, s + cs.length ≤ (tagsOf m).length ∧
      ∀ i, i < (tagsOf m).length →
        ((tagsOf m).get? i = some id ↔ (s ≤ i ∧ i < s + cs.length)) := by
  induction m with
  | nil => simp [dictFind] at hfind
  | cons p rest ih =>
    obtain ⟨k, v⟩ := p
    simp only [List.map_cons, List.nodup_cons] at hnd
    obtain ⟨hknotin, hndrest⟩ := hnd
    have htagsc : tagsOf ((k, v) :: rest) = List.replicate v.length k ++ tagsOf rest := by
      simp [tagsOf]
    by_cases hk : k = id
    · subst hk
      have hv : v = cs := by simpa [dictFind] using hfind
      subst hv
      refine ⟨0, ?_, ?_⟩
      · rw [htagsc]; simp
      · intro i hi
        rw [htagsc]
        by_cases hiv : i < v.length
        · rw [List.get?_append (by simpa using hiv)]
          simp [List.get?_eq_getElem?, hiv]
        · push_neg at hiv
          rw [List.get?_append_right (by simpa using hiv)]
          constructor
          · intro hsome
            exact absurd (mem_tagsOf _ _ (List.get?_mem hsome)) hknotin
          · intro hrange
            omega
    · have hfind' : dictFind rest id = some cs := by
        simpa [dictFind, hk] using hfind
      obtain ⟨s, hb, hiff⟩ := ih hndrest hfind'
      refine ⟨v.length + s, ?_, ?_⟩
      · rw [htagsc]; simp; omega
      · intro i hi
        rw [htagsc] at hi ⊢
        simp only [List.length_append, List.length_replicate] at hi
        by_cases hiv : i < v.length
        · rw [List.get?_append (by simpa using hiv)]
          have : (List.replicate v.length k).get? i = some k := by
            simp [List.get?_eq_getElem?, hiv]
          rw [this]
          constructor
          · intro hsome
            exact absurd (Option.some.inj hsome) hk
          · intro hrange
            omega
        · push_neg at hiv
          rw [List.get?_append_right (by simpa using hiv)]
          simp only [List.length_replicate]
          rw [hiff (i - v.length) (by omega)]
          omega

/-- **C3**: after any sequence of successful `add_document` calls with
pairwise-distinct doc_ids, `len(index) == len(doc_ids tags) == Σ chunk
counts`, the tag sequence is exactly the registry blocks in ingestion
order, and every registered document's index positions form one contiguous
range (so later documents never interleave with earlier ones). -/
theorem C3_index_registry_invariants (calls : List AddCall)
    (hok : (finalSD calls).2 = true)
    (hnd : (calls.map AddCall.doc_id).Nodup) :
    (finalStore calls).index.length = (finalStore calls).doc_ids.length ∧
    (finalStore calls).doc_ids.length = sumChunks (finalStore calls).metadata ∧
    (finalStore calls).doc_ids = tagsOf (finalStore calls).metadata ∧
    (∀ id cs, dictFind (finalStore calls).metadata id = some cs →
      ∃ s, s + cs.length ≤ (finalStore calls).doc_ids.length ∧
        ∀ i, i < (finalStore calls).doc_ids.length →
          ((finalStore calls).doc_ids.get? i = some id ↔
            (s ≤ i ∧ i < s + cs.length))) := by
  have hinv : StoreInv (finalStore calls) :=
    runAdds_StoreInv calls (startup emptyDisk) emptyDisk StoreInv_initial
      hok hnd (by intro c _; rw [startup_emptyDisk]; rfl)
  obtain ⟨hlen, htags, hndk, _⟩ := hinv
  refine ⟨hlen, ?_, htags, ?_⟩
  · rw [htags, tagsOf_length]
  · intro id cs hfind
    have := tags_block (finalStore calls).metadata hndk id cs hfind
    rwa [← htags] at this

theorem C3_witness :
    ((finalSD [⟨"A", [("alpha beta alpha beta", 1), ("beta gamma beta", 2)], "a.pdf"⟩,
        ⟨"B", [("delta alpha delta alpha", 1)], "b.pdf"⟩]).2 = true ∧
      ([⟨"A", [("alpha beta alpha beta", 1), ("beta gamma beta", 2)], "a.pdf"⟩,
        ⟨"B", [("delta alpha delta alpha", 1)], "b.pdf"⟩] :
          List AddCall).map AddCall.doc_id = ["A", "B"]) ∧
    ((finalStore [⟨"A", [("alpha beta alpha beta", 1), ("beta gamma beta", 2)], "a.pdf"⟩,
        ⟨"B", [("delta alpha delta alpha", 1)], "b.pdf"⟩]).index.length
      = (finalStore [⟨"A", [("alpha beta alpha beta", 1), ("beta gamma beta", 2)],
          "a.pdf"⟩, ⟨"B", [("delta alpha delta alpha", 1)], "b.pdf"⟩]).doc_ids.length) :=
  ⟨⟨by decide, by decide⟩,
    (C3_index_registry_invariants
      [⟨"A", [("alpha beta alpha beta", 1), ("beta gamma beta", 2)], "a.pdf"⟩,
        ⟨"B", [("delta alpha delta alpha", 1)], "b.pdf"⟩]
      (by decide) (by decide)).1⟩

/-! ## Persistence round-trip (C4) -/

/-- The `data/doc2vec_model` artifact mirrors the in-memory model (true
whenever every ingestion so far succeeded, since a successful `fit`
persists the model it installs and nothing else ever writes it). -/
def DiskInv (st : FAISSVectorStore) (d : Disk) : Prop :=
  (st.embeddings.model = none → d.doc2vecModel = none) ∧
  (∀ m, st.embeddings.model = some m → d.doc2vecModel = some (Except.ok m))

lemma DiskInv_step (st : FAISSVectorStore) (d : Disk) (id : String) (cwp : List Chunk)
    (fn : String) (hdi : DiskInv st d)
    (hok : (st.add_document d id cwp fn).2 = Except.ok ()) :
    DiskInv (st.add_document d id cwp fn).1.1 (st.add_document d id cwp fn).1.2 := by
  obtain ⟨m, hm', -, -, -, -, hdm⟩ := add_document_ok st d id cwp fn hok
  constructor
  · intro h
    rw [hm'] at h
    cases h
  · intro m' hm''
    rw [hm'] at hm''
    obtain rfl : m = m' := Option.some.inj hm''
    rcases hdm with ⟨hsame, hkeep⟩ | hwrote
    · rw [hkeep]
      exact hdi.2 m hsame
    · exact hwrote

lemma runAdds_DiskInv (calls : List AddCall) (st : FAISSVectorStore) (d : Disk)
    (hdi : DiskInv st d) (hok : (runAdds (st, d) calls).2 = true) :
    DiskInv (runAdds (st, d) calls).1.1 (runAdds (st, d) calls).1.2 := by
  induction calls generalizing st d with
  | nil => simpa [runAdds]
  | cons c rest ih =>
    simp only [runAdds, Bool.and_eq_true] at hok
    obtain ⟨hok1, hok2⟩ := hok
    rw [isOkB_eq_true_iff] at hok1
    have hdi' := DiskInv_step st d c.doc_id c.chunks c.filename hdi hok1
    simp only [runAdds]
    exact ih _ _ hdi' hok2

lemma DiskInv_initial : DiskInv (startup emptyDisk) emptyDisk :=
  ⟨fun _ => rfl, fun _ h => Option.noConfusion h⟩

/-- Loading the two artifacts written by `_save_state` into a freshly
constructed instance (whose constructor reloads the persisted model)
reproduces the saved store exactly. -/
lemma load_of_save (st : FAISSVectorStore) (d : Disk) (hdi : DiskInv st d) :
    startup (st._save_state d) = st := by
  obtain ⟨⟨mo⟩, idx, meta, dids, fns⟩ := st
  obtain ⟨h1, h2⟩ := hdi
  cases mo with
  | none =>
    have hd : d.doc2vecModel = none := h1 rfl
    simp [startup, FAISSVectorStore._save_state, FAISSVectorStore._load_state,
      freshInstance, Doc2VecEmbeddings.init, hd]
  | some m =>
    have hd : d.doc2vecModel = some (Except.ok m) := h2 m rfl
    simp [startup, FAISSVectorStore._save_state, FAISSVectorStore._load_state,
      freshInstance, Doc2VecEmbeddings.init, hd]

/-- The disk as left by the trace, after an explicit `save()`. -/
def savedDisk (calls : List AddCall) : Disk :=
  FAISSVectorStore._save_state (finalStore calls) (finalSD calls).1.2

/-- A fresh process booted on that disk (constructor + `_load_state`). -/
def reloadedStore (calls : List AddCall) : FAISSVectorStore :=
  startup (savedDisk calls)

/-- **C4 counterexample**: the round trip does *not* hold for every
reachable state. After a failed ingestion — chunks `[("x", 1)]` whose
preprocessed vocabulary is empty, so `fit` raises after assigning
`self.model` but before `_save_model` persists it — the original store
still answers `search` (its in-memory model object is assigned) while the
reloaded instance, whose model artifact was never written, raises the
model-not-trained error: `save()` + `load()` changes observable `search`
behavior on this reachable state. -/
theorem C4_counterexample :
    (finalStore [⟨"A", [("x", 1)], "a.pdf"⟩]).search "q" "A" 1 = Except.ok [] ∧
    (reloadedStore [⟨"A", [("x", 1)], "a.pdf"⟩]).search "q" "A" 1
      = Except.error PyError.modelNotTrained ∧
    (reloadedStore [⟨"A", [("x", 1)], "a.pdf"⟩]).search "q" "A" 1
      ≠ (finalStore [⟨"A", [("x", 1)], "a.pdf"⟩]).search "q" "A" 1 := by
  decide

/-- **C4 (amended)**: for every store state reached by a trace in which
every ingestion succeeded, `save()` followed by `load()` into a fresh
instance reproduces identical `exists` / `get_filename` / `search`
behavior (the embedding function of this model is deterministic, as the
spec's test protocol requires). After a failed ingestion the guarantee is
lost: the model object assigned by the failed `fit` is never persisted
(the counterexample above). -/
theorem C4_save_load_roundtrip (calls : List AddCall)
    (hok : (finalSD calls).2 = true) :
    reloadedStore calls = finalStore calls ∧
    (∀ id, (reloadedStore calls).existsDoc id = (finalStore calls).existsDoc id) ∧
    (∀ id, (reloadedStore calls).get_filename id
      = (finalStore calls).get_filename id) ∧
    (∀ q id k, (reloadedStore calls).search q id k
      = (finalStore calls).search q id k) := by
  have hdi : DiskInv (finalStore calls) (finalSD calls).1.2 :=
    runAdds_DiskInv calls (startup emptyDisk) emptyDisk DiskInv_initial hok
  have key : reloadedStore calls = finalStore calls :=
    load_of_save (finalStore calls) (finalSD calls).1.2 hdi
  exact ⟨key, fun id => by rw [key], fun id => by rw [key], fun q id k => by rw [key]⟩

theorem C4_witness :
    (finalSD [⟨"A", [("alpha beta alpha beta", 1), ("beta gamma beta", 2)],
        "a.pdf"⟩]).2 = true ∧
    reloadedStore [⟨"A", [("alpha beta alpha beta", 1), ("beta gamma beta", 2)],
        "a.pdf"⟩]
      = finalStore [⟨"A", [("alpha beta alpha beta", 1), ("beta gamma beta", 2)],
        "a.pdf"⟩] :=
  ⟨by decide,
    (C4_save_load_roundtrip [⟨"A", [("alpha beta alpha beta", 1),
      ("beta gamma beta", 2)], "a.pdf"⟩] (by decide)).1⟩

/-! ## Sorting lemmas for the FAISS ranking -/

lemma insertByKey_perm (key : Nat → Int) (i : Nat) (l : List Nat) :
    (insertByKey key i l).Perm (i :: l) := by
  induction l with
  | nil => simp [insertByKey]
  | cons j js ih =>
    by_cases h : key i ≤ key j
    · simp [insertByKey, h]
    · simp only [insertByKey, if_neg h]
      exact (ih.cons j).trans (List.Perm.swap i j js)

lemma sortByKey_perm (key : Nat → Int) (l : List Nat) :
    (sortByKey key l).Perm l := by
  induction l with
  | nil => simp [sortByKey]
  | cons i is ih =>
    exact (insertByKey_perm key i (sortByKey key is)).trans (ih.cons i)

lemma pairwise_insertByKey (key : Nat → Int) (i : Nat) (l : List Nat)
    (h : l.Pairwise (fun a b => key a ≤ key b)) :
    (insertByKey key i l).Pairwise (fun a b => key a ≤ key b) := by
  induction l with
  | nil => simp [insertByKey]
  | cons j js ih =>
    obtain ⟨hj, hjs⟩ := List.pairwise_cons.mp h
    by_cases hle : key i ≤ key j
    · simp only [insertByKey, if_pos hle]
      refine List.pairwise_cons.mpr ⟨?_, h⟩
      intro b hb
      rcases List.mem_cons.mp hb with rfl | hb
      · exact hle
      · exact le_trans hle (hj b hb)
    · simp only [insertByKey, if_neg hle]
      refine List.pairwise_cons.mpr ⟨?_, ih hjs⟩
      intro b hb
      rcases List.mem_cons.mp ((insertByKey_perm key i js).mem_iff.mp hb) with h' | h'
      · subst h'
        exact le_of_not_le hle
      · exact hj b h'

lemma sortByKey_pairwise (key : Nat → Int) (l : List Nat) :
    (sortByKey key l).Pairwise (fun a b => key a ≤ key b) := by
  induction l with
  | nil => simp [sortByKey]
  | cons i is ih => exact pairwise_insertByKey key i (sortByKey key is) ih

/-- When exactly `index.length` neighbours are requested (the situation in
`search` under the store invariant), the FAISS result is an unpadded
permutation of all positions, sorted by distance. -/
lemma faissSearch_full (index : List Emb) (q : Emb) :
    faissSearch index q index.length
      = (sortByKey (fun i => l2sq q (index.getD i [])) (List.range index.length)).map
          Int.ofNat := by
  unfold faissSearch
  have hlen : (sortByKey (fun i => l2sq q (index.getD i []))
      (List.range index.length)).length = index.length := by
    rw [(sortByKey_perm _ _).length_eq, List.length_range]
  rw [Nat.sub_self, List.replicate_zero, List.append_nil,
    List.take_of_length_le (le_of_eq hlen)]

lemma forall₂_mem_right {α β : Type} {R : α → β → Prop} {l₁ : List α} {l₂ : List β}
    (h : List.Forall₂ R l₁ l₂) {b : β} (hb : b ∈ l₂) : ∃ a ∈ l₁, R a b := by
  induction h with
  | nil => simp at hb
  | cons hab htail ih =>
    rcases List.mem_cons.mp hb with rfl | hb
    · exact ⟨_, List.mem_cons_self _ _, hab⟩
    · obtain ⟨a, ha, hR⟩ := ih hb
      exact ⟨a, List.mem_cons_of_mem _ ha, hR⟩

lemma sublist_append_split {α : Type} :
    ∀ {l r₁ r₂ : List α}, l.Sublist (r₁ ++ r₂) →
      ∃ l₁ l₂, l = l₁ ++ l₂ ∧ l₁.Sublist r₁ ∧ l₂.Sublist r₂ := by
  intro l r₁
  induction r₁ generalizing l with
  | nil => intro r₂ h; exact ⟨[], l, rfl, List.nil_sublist _, h⟩
  | cons a r₁ ih =>
    intro r₂ h
    cases h with
    | cons _ h' =>
      obtain ⟨l₁, l₂, rfl, h₁, h₂⟩ := ih h'
      exact ⟨l₁, l₂, rfl, h₁.cons a, h₂⟩
    | cons₂ _ h' =>
      obtain ⟨l₁, l₂, rfl, h₁, h₂⟩ := ih h'
      exact ⟨a :: l₁, l₂, rfl, h₁.cons₂ a, h₂⟩

/-! ## Unfolding lemmas for the search filter loop -/

section CollectLoopLemmas

variable {tags : List String} {meta : List Chunk} {start : Nat} {doc : String} {k : Nat}
variable {idx : Int} {rest : List Int} {acc : List Chunk} {seen : List String}

lemma collectLoop_nil : collectLoop tags meta start doc k [] acc seen
    = Except.ok acc := rfl

lemma collectLoop_cons_invalid (h1 : ¬(0 ≤ idx ∧ idx < (tags.length : Int))) :
    collectLoop tags meta start doc k (idx :: rest) acc seen
      = collectLoop tags meta start doc k rest acc seen := by
  simp only [collectLoop, if_neg h1]

lemma collectLoop_cons_wrongtag (h1 : 0 ≤ idx ∧ idx < (tags.length : Int))
    (h2 : ¬ tags.getD idx.toNat "" = doc) :
    collectLoop tags meta start doc k (idx :: rest) acc seen
      = collectLoop tags meta start doc k rest acc seen := by
  simp only [collectLoop, if_pos h1, if_neg h2]

lemma collectLoop_cons_idxerr (h1 : 0 ≤ idx ∧ idx < (tags.length : Int))
    (h2 : tags.getD idx.toNat "" = doc)
    (hpg : pyGet meta (idx - (start : Int)) = none) :
    collectLoop tags meta start doc k (idx :: rest) acc seen
      = Except.error PyError.indexError := by
  simp only [collectLoop, if_pos h1, if_pos h2, hpg]

lemma collectLoop_cons_seen {c : Chunk} (h1 : 0 ≤ idx ∧ idx < (tags.length : Int))
    (h2 : tags.getD idx.toNat "" = doc)
    (hpg : pyGet meta (idx - (start : Int)) = some c) (h3 : c.1 ∈ seen) :
    collectLoop tags meta start doc k (idx :: rest) acc seen
      = collectLoop tags meta start doc k rest acc seen := by
  simp only [collectLoop, if_pos h1, if_pos h2, hpg, if_pos h3]

lemma collectLoop_cons_break {c : Chunk} (h1 : 0 ≤ idx ∧ idx < (tags.length : Int))
    (h2 : tags.getD idx.toNat "" = doc)
    (hpg : pyGet meta (idx - (start : Int)) = some c) (h3 : c.1 ∉ seen)
    (h4 : k ≤ acc.length + 1) :
    collectLoop tags meta start doc k (idx :: rest) acc seen
      = Except.ok (acc ++ [c]) := by
  simp only [collectLoop, if_pos h1, if_pos h2, hpg, if_neg h3, if_pos h4]

lemma collectLoop_cons_cont {c : Chunk} (h1 : 0 ≤ idx ∧ idx < (tags.length : Int))
    (h2 : tags.getD idx.toNat "" = doc)
    (hpg : pyGet meta (idx - (start : Int)) = some c) (h3 : c.1 ∉ seen)
    (h4 : ¬ k ≤ acc.length + 1) :
    collectLoop tags meta start doc k (idx :: rest) acc seen
      = collectLoop tags meta start doc k rest (acc ++ [c]) (c.1 :: seen) := by
  simp only [collectLoop, if_pos h1, if_pos h2, hpg, if_neg h3, if_neg h4]

end CollectLoopLemmas

/-- The relation between a kept candidate position and the returned chunk:
the position is valid, tagged with the requested document, and the chunk
was read from the document's chunk list at the offset the code computes. -/
def resultRel (tags : List String) (meta : List Chunk) (start : Nat) (doc : String)
    (idx : Int) (c : Chunk) : Prop :=
  0 ≤ idx ∧ idx.toNat < tags.length ∧ tags.getD idx.toNat "" = doc ∧
    pyGet meta (idx - (start : Int)) = some c

/-- Every successful run of the filter loop returns its accumulator
extended by chunks read off a subsequence of the walked candidate list,
each from a position tagged with the requested document. -/
lemma collectLoop_correspond (tags : List String) (meta : List Chunk) (start : Nat)
    (doc : String) (k : Nat) :
    ∀ (L : List Int) (acc : List Chunk) (seen : List String) (res : List Chunk),
      collectLoop tags meta start doc k L acc seen = Except.ok res →
      ∃ picked tail, picked.Sublist L ∧ res = acc ++ tail ∧
        List.Forall₂ (resultRel tags meta start doc) picked tail := by
  intro L
  induction L with
  | nil =>
    intro acc seen res h
    rw [collectLoop_nil] at h
    obtain rfl := Except.ok.inj h
    exact ⟨[], [], List.nil_sublist _, by simp, List.Forall₂.nil⟩
  | cons idx rest ih =>
    intro acc seen res h
    by_cases h1 : 0 ≤ idx ∧ idx < (tags.length : Int)
    · by_cases h2 : tags.getD idx.toNat "" = doc
      · cases hpg : pyGet meta (idx - (start : Int)) with
        | none =>
          rw [collectLoop_cons_idxerr h1 h2 hpg] at h
          exact absurd h (by simp)
        | some c =>
          by_cases h3 : c.1 ∈ seen
          · rw [collectLoop_cons_seen h1 h2 hpg h3] at h
            obtain ⟨picked, tail, hsub, heq, hfa⟩ := ih acc seen res h
            exact ⟨picked, tail, hsub.cons idx, heq, hfa⟩
          · by_cases h4 : k ≤ acc.length + 1
            · rw [collectLoop_cons_break h1 h2 hpg h3 h4] at h
              obtain rfl := Except.ok.inj h
              refine ⟨[idx], [c], (List.nil_sublist rest).cons₂ idx, rfl, ?_⟩
              refine List.Forall₂.cons ⟨h1.1, ?_, h2, hpg⟩ List.Forall₂.nil
              have := h1.2
              omega
            · rw [collectLoop_cons_cont h1 h2 hpg h3 h4] at h
              obtain ⟨picked, tail, hsub, heq, hfa⟩ := ih (acc ++ [c]) (c.1 :: seen) res h
              refine ⟨idx :: picked, c :: tail, hsub.cons₂ idx, ?_, ?_⟩
              · rw [heq]; simp
              · refine List.Forall₂.cons ⟨h1.1, ?_, h2, hpg⟩ hfa
                have := h1.2
                omega
      · rw [collectLoop_cons_wrongtag h1 h2] at h
        obtain ⟨picked, tail, hsub, heq, hfa⟩ := ih acc seen res h
        exact ⟨picked, tail, hsub.cons idx, heq, hfa⟩
    · rw [collectLoop_cons_invalid h1] at h
      obtain ⟨picked, tail, hsub, heq, hfa⟩ := ih acc seen res h
      exact ⟨picked, tail, hsub.cons idx, heq, hfa⟩

/-- If fewer than `k` chunks are already collected, the loop never returns
more than `k` (the `len(results) >= k` break fires right after the k-th
append). -/
lemma collectLoop_length_le (tags : List String) (meta : List Chunk) (start : Nat)
    (doc : String) (k : Nat) :
    ∀ (L : List Int) (acc : List Chunk) (seen : List String) (res : List Chunk),
      acc.length < k →
      collectLoop tags meta start doc k L acc seen = Except.ok res →
      res.length ≤ k := by
  intro L
  induction L with
  | nil =>
    intro acc seen res hlt h
    rw [collectLoop_nil] at h
    obtain rfl := Except.ok.inj h
    exact le_of_lt hlt
  | cons idx rest ih =>
    intro acc seen res hlt h
    by_cases h1 : 0 ≤ idx ∧ idx < (tags.length : Int)
    · by_cases h2 : tags.getD idx.toNat "" = doc
      · cases hpg : pyGet meta (idx - (start : Int)) with
        | none =>
          rw [collectLoop_cons_idxerr h1 h2 hpg] at h
          exact absurd h (by simp)
        | some c =>
          by_cases h3 : c.1 ∈ seen
          · rw [collectLoop_cons_seen h1 h2 hpg h3] at h
            exact ih acc seen res hlt h
          · by_cases h4 : k ≤ acc.length + 1
            · rw [collectLoop_cons_break h1 h2 hpg h3 h4] at h
              obtain rfl := Except.ok.inj h
              simp only [List.length_append, List.length_singleton]
              omega
            · rw [collectLoop_cons_cont h1 h2 hpg h3 h4] at h
              refine ih (acc ++ [c]) (c.1 :: seen) res ?_ h
              simp only [List.length_append, List.length_singleton]
              omega
      · rw [collectLoop_cons_wrongtag h1 h2] at h
        exact ih acc seen res hlt h
    · rw [collectLoop_cons_invalid h1] at h
      exact ih acc seen res hlt h

/-- The `seen` set tracks exactly the collected chunk texts, so the
returned sequence has pairwise-distinct chunk texts. -/
lemma collectLoop_nodup (tags : List String) (meta : List Chunk) (start : Nat)
    (doc : String) (k : Nat) :
    ∀ (L : List Int) (acc : List Chunk) (seen : List String) (res : List Chunk),
      (∀ t, t ∈ seen ↔ t ∈ acc.map Prod.fst) →
      (acc.map Prod.fst).Nodup →
      collectLoop tags meta start doc k L acc seen = Except.ok res →
      (res.map Prod.fst).Nodup := by
  intro L
  induction L with
  | nil =>
    intro acc seen res _ hnd h
    rw [collectLoop_nil] at h
    obtain rfl := Except.ok.inj h
    exact hnd
  | cons idx rest ih =>
    intro acc seen res hiff hnd h
    by_cases h1 : 0 ≤ idx ∧ idx < (tags.length : Int)
    · by_cases h2 : tags.getD idx.toNat "" = doc
      · cases hpg : pyGet meta (idx - (start : Int)) with
        | none =>
          rw [collectLoop_cons_idxerr h1 h2 hpg] at h
          exact absurd h (by simp)
        | some c =>
          by_cases h3 : c.1 ∈ seen
          · rw [collectLoop_cons_seen h1 h2 hpg h3] at h
            exact ih acc seen res hiff hnd h
          · have hnotacc : c.1 ∉ acc.map Prod.fst := fun hm => h3 ((hiff c.1).mpr hm)
            have hnd' : ((acc ++ [c]).map Prod.fst).Nodup := by
              simp only [List.map_append, List.map_cons, List.map_nil]
              simp [List.nodup_append, hnd, hnotacc]
            by_cases h4 : k ≤ acc.length + 1
            · rw [collectLoop_cons_break h1 h2 hpg h3 h4] at h
              obtain rfl := Except.ok.inj h
              exact hnd'
            · rw [collectLoop_cons_cont h1 h2 hpg h3 h4] at h
              refine ih (acc ++ [c]) (c.1 :: seen) res ?_ hnd' h
              intro t
              simp only [List.mem_cons, List.map_append, List.mem_append,
                List.map_cons, List.map_nil, List.mem_singleton]
              rw [hiff t]
              tauto
      · rw [collectLoop_cons_wrongtag h1 h2] at h
        exact ih acc seen res hiff hnd h
    · rw [collectLoop_cons_invalid h1] at h
      exact ih acc seen res hiff hnd h

/-- If the loop terminates with fewer than `k` results (so the break never
fired), then every walked valid candidate tagged with the document
contributed its chunk text to the result (directly or as a duplicate of an
earlier one). -/
lemma collectLoop_complete (tags : List String) (meta : List Chunk) (start : Nat)
    (doc : String) (k : Nat) :
    ∀ (L : List Int) (acc : List Chunk) (seen : List String) (res : List Chunk),
      (∀ t, t ∈ seen → t ∈ acc.map Prod.fst) →
      collectLoop tags meta start doc k L acc seen = Except.ok res →
      res.length < k →
      ∀ idx, idx ∈ L → 0 ≤ idx → idx.toNat < tags.length →
        tags.getD idx.toNat "" = doc →
        ∀ c, pyGet meta (idx - (start : Int)) = some c →
          c.1 ∈ res.map Prod.fst := by
  intro L
  induction L with
  | nil =>
    intro acc seen res _ _ _ idx hmem
    exact absurd hmem (List.not_mem_nil idx)
  | cons idx0 rest ih =>
    intro acc seen res hseen h hres jdx hmem hnn hlt htag c hc
    by_cases h1 : 0 ≤ idx0 ∧ idx0 < (tags.length : Int)
    · by_cases h2 : tags.getD idx0.toNat "" = doc
      · cases hpg : pyGet meta (idx0 - (start : Int)) with
        | none =>
          rw [collectLoop_cons_idxerr h1 h2 hpg] at h
          exact absurd h (by simp)
        | some c0 =>
          by_cases h3 : c0.1 ∈ seen
          · rw [collectLoop_cons_seen h1 h2 hpg h3] at h
            rcases List.mem_cons.mp hmem with rfl | hmem
            · have hcc : c0 = c := Option.some.inj (hpg.symm.trans hc)
              obtain ⟨picked, tail, -, heq, -⟩ :=
                collectLoop_correspond tags meta start doc k rest acc seen res h
              rw [heq, List.map_append, ← hcc]
              exact List.mem_append_left _ (hseen c0.1 h3)
            · exact ih acc seen res hseen h hres jdx hmem hnn hlt htag c hc
          · by_cases h4 : k ≤ acc.length + 1
            · rw [collectLoop_cons_break h1 h2 hpg h3 h4] at h
              obtain rfl := Except.ok.inj h
              simp only [List.length_append, List.length_singleton] at hres
              omega
            · rw [collectLoop_cons_cont h1 h2 hpg h3 h4] at h
              rcases List.mem_cons.mp hmem with rfl | hmem
              · have hcc : c0 = c := Option.some.inj (hpg.symm.trans hc)
                obtain ⟨picked, tail, -, heq, -⟩ :=
                  collectLoop_correspond tags meta start doc k rest (acc ++ [c0])
                    (c0.1 :: seen) res h
                rw [heq, List.map_append]
                refine List.mem_append_left _ ?_
                rw [← hcc]
                simp
              · refine ih (acc ++ [c0]) (c0.1 :: seen) res ?_ h hres jdx hmem hnn hlt
                  htag c hc
                intro t ht
                rcases List.mem_cons.mp ht with rfl | ht
                · simp
                · rw [List.map_append]
                  exact List.mem_append_left _ (hseen t ht)
      · rw [collectLoop_cons_wrongtag h1 h2] at h
        rcases List.mem_cons.mp hmem with rfl | hmem
        · exact absurd htag h2
        · exact ih acc seen res hseen h hres jdx hmem hnn hlt htag c hc
    · rw [collectLoop_cons_invalid h1] at h
      rcases List.mem_cons.mp hmem with rfl | hmem
      · refine absurd ⟨hnn, ?_⟩ h1
        omega
      · exact ih acc seen res hseen h hres jdx hmem hnn hlt htag c hc

lemma forall₂_mem_left {α β : Type} {R : α → β → Prop} {l₁ : List α} {l₂ : List β}
    (h : List.Forall₂ R l₁ l₂) {a : α} (ha : a ∈ l₁) : ∃ b ∈ l₂, R a b := by
  induction h with
  | nil => simp at ha
  | cons hab htail ih =>
    rcases List.mem_cons.mp ha with rfl | ha
    · exact ⟨_, List.mem_cons_self _ _, hab⟩
    · obtain ⟨b, hb, hR⟩ := ih ha
      exact ⟨b, List.mem_cons_of_mem _ hb, hR⟩

lemma pyGet_mem {α : Type} (l : List α) (i : Int) (a : α) (h : pyGet l i = some a) :
    a ∈ l := by
  unfold pyGet at h
  split at h
  · exact List.get?_mem h
  · split at h
    · exact List.get?_mem h
    · exact absurd h (by simp)

lemma getD_of_get? {α : Type} (l : List α) (i : Nat) (d a : α)
    (h : l.get? i = some a) : l.getD i d = a := by
  simp [List.getD_eq_getElem?_getD, List.get?_eq_getElem?] at h ⊢
  simp [h]

lemma search_eq_of_exists (st : FAISSVectorStore) (q doc : String) (k : Nat)
    (m : Doc2VecModel) (hm : st.embeddings.model = some m)
    (hex : st.existsDoc doc = true) :
    st.search q doc k
      = collectLoop st.doc_ids ((dictFind st.metadata doc).getD [])
          (st._get_doc_start_idx doc) doc k
          (faissSearch st.index (inferVector m (simplePreprocess q))
            st.doc_ids.length) [] [] := by
  unfold FAISSVectorStore.search
  simp [hex, Doc2VecEmbeddings.embed, hm]

/-- **C2**: whenever `search` returns a result sequence, the results are
read off a subsequence of the candidates ranked by ascending squared L2
distance between the query embedding and the stored embeddings, so the
distances at the results' index positions are non-decreasing, best match
first. -/
theorem C2_search_sorted (st : FAISSVectorStore) (q doc : String) (k : Nat)
    (res : List Chunk) (hres : st.search q doc k = Except.ok res) :
    ∃ idxs : List Int,
      List.Forall₂ (resultRel st.doc_ids ((dictFind st.metadata doc).getD [])
        (st._get_doc_start_idx doc) doc) idxs res ∧
      idxs.Pairwise (fun a b =>
        l2sq (queryEmbedding st q) (st.index.getD a.toNat [])
          ≤ l2sq (queryEmbedding st q) (st.index.getD b.toNat [])) := by
  by_cases hex : st.existsDoc doc = false
  · refine ⟨[], ?_, List.Pairwise.nil⟩
    rw [search_of_not_exists st q doc k hex] at hres
    obtain rfl := Except.ok.inj hres
    exact List.Forall₂.nil
  · have hex' : st.existsDoc doc = true := by
      cases h : st.existsDoc doc
      · exact absurd h hex
      · rfl
    cases hm : st.embeddings.model with
    | none =>
      rw [show st.search q doc k = Except.error PyError.modelNotTrained by
        unfold FAISSVectorStore.search
        simp [hex', Doc2VecEmbeddings.embed, hm]] at hres
      exact absurd hres (by simp)
    | some m =>
      rw [search_eq_of_exists st q doc k m hm hex'] at hres
      obtain ⟨picked, tail, hsub, heq, hfa⟩ :=
        collectLoop_correspond st.doc_ids ((dictFind st.metadata doc).getD [])
          (st._get_doc_start_idx doc) doc k _ [] [] res hres
    
      have heq' : res = tail := by simpa using heq
      subst heq'
      refine ⟨picked, hfa, ?_⟩
      unfold faissSearch at hsub
      obtain ⟨p1, p2, rfl, hs1, hs2⟩ := sublist_append_split hsub
      have hp2 : p2 = [] := by
        cases hp : p2 with
        | nil => rfl
        | cons x xs =>
          subst hp
          have hx1 : x = -1 :=
            List.eq_of_mem_replicate (hs2.subset (List.mem_cons_self x xs))
          obtain ⟨cb, -, hrel⟩ :=
            forall₂_mem_left hfa
              (List.mem_append_right p1 (List.mem_cons_self x xs))
          have h0 : (0 : Int) ≤ x := hrel.1
          rw [hx1] at h0
          exact absurd h0 (by norm_num)
      subst hp2
      rw [List.append_nil]
      have hkey : ((sortByKey
          (fun i => l2sq (inferVector m (simplePreprocess q)) (st.index.getD i []))
          (List.range st.index.length)).take st.doc_ids.length).Pairwise
          (fun i j => l2sq (inferVector m (simplePreprocess q)) (st.index.getD i [])
            ≤ l2sq (inferVector m (simplePreprocess q)) (st.index.getD j [])) :=
        (sortByKey_pairwise _ _).sublist (List.take_sublist _ _)
      have hmap : (((sortByKey
          (fun i => l2sq (inferVector m (simplePreprocess q)) (st.index.getD i []))
          (List.range st.index.length)).take st.doc_ids.length).map Int.ofNat).Pairwise
          (fun a b : Int =>
            l2sq (inferVector m (simplePreprocess q)) (st.index.getD a.toNat [])
              ≤ l2sq (inferVector m (simplePreprocess q)) (st.index.getD b.toNat [])) := by
        rw [List.pairwise_map]
        refine hkey.imp ?_
        intro a b
        exact fun hab => by simpa using hab
      have hfin := hmap.sublist hs1
      refine hfin.imp ?_
      intro a b hab
      simpa [queryEmbedding, hm] using hab

lemma docStartIdx_spec (l : List String) (doc : String) :
    ∀ s : Nat, l.get? s = some doc → (∀ j, j < s → l.get? j ≠ some doc) →
      docStartIdx doc l = some s := by
  induction l with
  | nil => intro s hs _; simp at hs
  | cons d ds ih =>
    intro s hs hmin
    by_cases hd : d = doc
    · cases s with
      | zero => simp [docStartIdx, hd]
      | succ s' =>
        exact absurd (by simp [hd] : (d :: ds).get? 0 = some doc)
          (hmin 0 (Nat.succ_pos s'))
    · cases s with
      | zero =>
        simp only [List.get?_cons_zero] at hs
        exact absurd (Option.some.inj hs) hd
      | succ s' =>
        have hs' : ds.get? s' = some doc := by simpa using hs
        have hmin' : ∀ j, j < s' → ds.get? j ≠ some doc := by
          intro j hj
          have := hmin (j + 1) (by omega)
          simpa using this
        simp [docStartIdx, hd, ih s' hs' hmin']

lemma nodup_subset_length_le_dedup (l₁ l₂ : List String) (hnd : l₁.Nodup)
    (hsub : ∀ x ∈ l₁, x ∈ l₂) : l₁.length ≤ l₂.dedup.length := by
  have h1 : l₁.toFinset.card = l₁.length := List.toFinset_card_of_nodup hnd
  have h2 : l₁.toFinset ⊆ l₂.toFinset := by
    intro x hx
    exact List.mem_toFinset.mpr (hsub x (List.mem_toFinset.mp hx))
  have h3 := Finset.card_le_card h2
  rw [h1, List.card_toFinset l₂] at h3
  exact h3

/-- The search guarantees of C1, proved for any store satisfying the
structural invariant. -/
lemma search_topk_of_inv (st : FAISSVectorStore) (q doc : String) (k : Nat)
    (res : List Chunk) (hinv : StoreInv st) (hk : 0 < k)
    (hres : st.search q doc k = Except.ok res) :
    res.length ≤ k ∧
    (res.map Prod.fst).Nodup ∧
    (∀ c ∈ res, ∃ idx : Int,
      resultRel st.doc_ids ((dictFind st.metadata doc).getD [])
        (st._get_doc_start_idx doc) doc idx c) ∧
    (∀ cs, dictFind st.metadata doc = some cs →
      (cs.map Prod.fst).dedup.length < k →
      ∀ t ∈ cs.map Prod.fst, t ∈ res.map Prod.fst) := by
  obtain ⟨hlen, htags, hndk, hmodel⟩ := hinv
  by_cases hex : st.existsDoc doc = false
  · rw [search_of_not_exists st q doc k hex] at hres
    obtain rfl := Except.ok.inj hres
    refine ⟨by simp, by simp, by simp, ?_⟩
    intro cs hfind
    exact absurd hex (by simp [FAISSVectorStore.existsDoc, dictContains, hfind])
  · have hex' : st.existsDoc doc = true := by
      cases h : st.existsDoc doc
      · exact absurd h hex
      · rfl
    have hne : st.metadata ≠ [] := by
      intro h0
      rw [FAISSVectorStore.existsDoc, dictContains, h0] at hex'
      simp [dictFind] at hex'
    obtain ⟨m, hm⟩ := Option.isSome_iff_exists.mp (hmodel hne)
    rw [search_eq_of_exists st q doc k m hm hex'] at hres
    obtain ⟨picked, tail, hsub, heq, hfa⟩ :=
      collectLoop_correspond st.doc_ids ((dictFind st.metadata doc).getD [])
        (st._get_doc_start_idx doc) doc k _ [] [] res hres
    have heq' : res = tail := by simpa using heq
    refine ⟨collectLoop_length_le _ _ _ _ _ _ [] [] res (by simpa) hres,
      collectLoop_nodup _ _ _ _ _ _ [] [] res (by simp) (by simp) hres, ?_, ?_⟩
    · intro c hc
      obtain ⟨idx, -, hrel⟩ := forall₂_mem_right hfa (heq' ▸ hc)
      exact ⟨idx, hrel⟩
    · intro cs hfind hdedup t ht
      -- the document's contiguous block of positions
      obtain ⟨s, hsle0, hiff0⟩ := tags_block st.metadata hndk doc cs hfind
      rw [← htags] at hsle0 hiff0
      obtain ⟨c, hcmem, hct⟩ := List.mem_map.mp ht
      obtain ⟨j0, hj0⟩ := List.mem_iff_get?.mp hcmem
      obtain ⟨hj0lt, -⟩ := List.get?_eq_some.mp hj0
      -- the code's start index is the block start
      have hstart : st._get_doc_start_idx doc = s := by
        rw [FAISSVectorStore._get_doc_start_idx,
          docStartIdx_spec st.doc_ids doc s
            ((hiff0 s (by omega)).mpr ⟨le_refl s, by omega⟩)
            (fun j hj hcon => by
              have := (hiff0 j (by omega)).mp hcon
              omega)]
        rfl
      rw [hfind] at hres
      simp only [Option.getD_some] at hres
      rw [hstart] at hres
      -- every returned text is one of the document's chunk texts
      have hsubtexts : ∀ x ∈ res.map Prod.fst, x ∈ cs.map Prod.fst := by
        intro x hx
        obtain ⟨c', hc', hcx⟩ := List.mem_map.mp hx
        obtain ⟨idx, -, hrel⟩ := forall₂_mem_right hfa (heq' ▸ hc')
        have := pyGet_mem _ _ _ (by
          have h4 := hrel.2.2.2
          rw [hfind] at h4
          simpa [hstart] using h4)
        exact List.mem_map.mpr ⟨c', this, hcx⟩
      have hnodup : (res.map Prod.fst).Nodup :=
        collectLoop_nodup _ _ _ _ _ _ [] [] res (by simp) (by simp) hres
      have hresLt : res.length < k := by
        have h5 := nodup_subset_length_le_dedup (res.map Prod.fst) (cs.map Prod.fst)
          hnodup hsubtexts
        simp only [List.length_map] at h5
        omega
      -- the block position holding chunk `c` appears among the candidates
      have hidxlen : st.index.length = st.doc_ids.length := hlen
      have hposlt : s + j0 < st.index.length := by omega
      have hposmem : (Int.ofNat (s + j0))
          ∈ faissSearch st.index (inferVector m (simplePreprocess q))
              st.doc_ids.length := by
        rw [← hidxlen, faissSearch_full]
        exact List.mem_map_of_mem _
          ((sortByKey_perm _ _).mem_iff.mpr (List.mem_range.mpr hposlt))
      have harith : (Int.ofNat (s + j0)) - (s : Int) = (j0 : Int) := by
        simp only [Int.ofNat_eq_coe]
        push_cast
        ring
      have hfinal := collectLoop_complete st.doc_ids cs s doc k _ [] [] res
        (by simp) hres hresLt (Int.ofNat (s + j0)) hposmem (by omega)
        (by omega)
        (getD_of_get? _ _ _ _ ((hiff0 (s + j0) (by omega)).mpr
          ⟨by omega, by omega⟩))
        c (by
          simp only [pyGet, harith]
          rw [if_pos (by omega)]
          simpa using hj0)
      rw [← hct]
      exact hfinal

/-- **C1**: in every stored state (reached by successful ingestions of
distinct doc_ids) a `search(query, doc_id, k)` with positive `k` returns
at most `k` pairs, each read from an index position tagged `doc_id`, with
no duplicate chunk text; and when fewer than `k` distinct chunk texts
exist for the document, every one of its chunk texts appears in the
result. -/
theorem C1_search_topk (calls : List AddCall) (q doc : String) (k : Nat)
    (res : List Chunk)
    (hok : (finalSD calls).2 = true)
    (hnd : (calls.map AddCall.doc_id).Nodup)
    (hk : 0 < k)
    (hres : (finalStore calls).search q doc k = Except.ok res) :
    res.length ≤ k ∧
    (res.map Prod.fst).Nodup ∧
    (∀ c ∈ res, ∃ idx : Int,
      resultRel (finalStore calls).doc_ids
        ((dictFind (finalStore calls).metadata doc).getD [])
        ((finalStore calls)._get_doc_start_idx doc) doc idx c) ∧
    (∀ cs, dictFind (finalStore calls).metadata doc = some cs →
      (cs.map Prod.fst).dedup.length < k →
      ∀ t ∈ cs.map Prod.fst, t ∈ res.map Prod.fst) :=
  search_topk_of_inv (finalStore calls) q doc k res
    (runAdds_StoreInv calls (startup emptyDisk) emptyDisk StoreInv_initial hok hnd
      (by intro c _; rw [startup_emptyDisk]; rfl))
    hk hres

theorem C2_witness :
    (finalStore [⟨"A", [("alpha beta alpha beta", 1), ("beta gamma beta", 2)], "a.pdf"⟩,
        ⟨"B", [("delta alpha delta alpha", 1)], "b.pdf"⟩]).search "beta gamma" "A" 5
      = Except.ok [("beta gamma beta", 2), ("alpha beta alpha beta", 1)] ∧
    (∃ idxs : List Int,
      List.Forall₂ (resultRel
        (finalStore [⟨"A", [("alpha beta alpha beta", 1), ("beta gamma beta", 2)],
            "a.pdf"⟩, ⟨"B", [("delta alpha delta alpha", 1)], "b.pdf"⟩]).doc_ids
        ((dictFind (finalStore [⟨"A", [("alpha beta alpha beta", 1),
            ("beta gamma beta", 2)], "a.pdf"⟩,
            ⟨"B", [("delta alpha delta alpha", 1)], "b.pdf"⟩]).metadata "A").getD [])
        ((finalStore [⟨"A", [("alpha beta alpha beta", 1), ("beta gamma beta", 2)],
            "a.pdf"⟩,
            ⟨"B", [("delta alpha delta alpha", 1)], "b.pdf"⟩])._get_doc_start_idx "A")
        "A") idxs [("beta gamma beta", 2), ("alpha beta alpha beta", 1)] ∧
      idxs.Pairwise (fun a b =>
        l2sq (queryEmbedding (finalStore [⟨"A", [("alpha beta alpha beta", 1),
              ("beta gamma beta", 2)], "a.pdf"⟩,
              ⟨"B", [("delta alpha delta alpha", 1)], "b.pdf"⟩]) "beta gamma")
            ((finalStore [⟨"A", [("alpha beta alpha beta", 1), ("beta gamma beta", 2)],
              "a.pdf"⟩,
              ⟨"B", [("delta alpha delta alpha", 1)], "b.pdf"⟩]).index.getD a.toNat [])
          ≤ l2sq (queryEmbedding (finalStore [⟨"A", [("alpha beta alpha beta", 1),
              ("beta gamma beta", 2)], "a.pdf"⟩,
              ⟨"B", [("delta alpha delta alpha", 1)], "b.pdf"⟩]) "beta gamma")
            ((finalStore [⟨"A", [("alpha beta alpha beta", 1), ("beta gamma beta", 2)],
              "a.pdf"⟩,
              ⟨"B", [("delta alpha delta alpha", 1)], "b.pdf"⟩]).index.getD
                b.toNat []))) :=
  ⟨by decide,
    C2_search_sorted
      (finalStore [⟨"A", [("alpha beta alpha beta", 1), ("beta gamma beta", 2)],
        "a.pdf"⟩, ⟨"B", [("delta alpha delta alpha", 1)], "b.pdf"⟩])
      "beta gamma" "A" 5 [("beta gamma beta", 2), ("alpha beta alpha beta", 1)]
      (by decide)⟩

theorem C1_witness :
    ((finalSD [⟨"A", [("alpha beta alpha beta", 1), ("beta gamma beta", 2)], "a.pdf"⟩,
        ⟨"B", [("delta alpha delta alpha", 1)], "b.pdf"⟩]).2 = true ∧
      (([⟨"A", [("alpha beta alpha beta", 1), ("beta gamma beta", 2)], "a.pdf"⟩,
        ⟨"B", [("delta alpha delta alpha", 1)], "b.pdf"⟩] :
          List AddCall).map AddCall.doc_id).Nodup ∧
      0 < 5 ∧
      (finalStore [⟨"A", [("alpha beta alpha beta", 1), ("beta gamma beta", 2)],
          "a.pdf"⟩, ⟨"B", [("delta alpha delta alpha", 1)], "b.pdf"⟩]).search
          "beta gamma" "A" 5
        = Except.ok [("beta gamma beta", 2), ("alpha beta alpha beta", 1)]) ∧
    ([("beta gamma beta", 2), ("alpha beta alpha beta", 1)].length ≤ 5 ∧
      (([("beta gamma beta", 2), ("alpha beta alpha beta", 1)] :
          List Chunk).map Prod.fst).Nodup ∧
      (∀ c ∈ ([("beta gamma beta", 2), ("alpha beta alpha beta", 1)] : List Chunk),
        ∃ idx : Int,
          resultRel (finalStore [⟨"A", [("alpha beta alpha beta", 1),
              ("beta gamma beta", 2)], "a.pdf"⟩,
              ⟨"B", [("delta alpha delta alpha", 1)], "b.pdf"⟩]).doc_ids
            ((dictFind (finalStore [⟨"A", [("alpha beta alpha beta", 1),
              ("beta gamma beta", 2)], "a.pdf"⟩,
              ⟨"B", [("delta alpha delta alpha", 1)],
                "b.pdf"⟩]).metadata "A").getD [])
            ((finalStore [⟨"A", [("alpha beta alpha beta", 1), ("beta gamma beta", 2)],
              "a.pdf"⟩,
              ⟨"B", [("delta alpha delta alpha", 1)],
                "b.pdf"⟩])._get_doc_start_idx "A")
            "A" idx c) ∧
      (∀ cs, dictFind (finalStore [⟨"A", [("alpha beta alpha beta", 1),
            ("beta gamma beta", 2)], "a.pdf"⟩,
            ⟨"B", [("delta alpha delta alpha", 1)], "b.pdf"⟩]).metadata "A" = some cs →
        (cs.map Prod.fst).dedup.length < 5 →
        ∀ t ∈ cs.map Prod.fst,
          t ∈ ([("beta gamma beta", 2), ("alpha beta alpha beta", 1)] :
            List Chunk).map Prod.fst)) :=
  ⟨⟨by decide, by decide, by decide, by decide⟩,
    C1_search_topk
      [⟨"A", [("alpha beta alpha beta", 1), ("beta gamma beta", 2)], "a.pdf"⟩,
        ⟨"B", [("delta alpha delta alpha", 1)], "b.pdf"⟩]
      "beta gamma" "A" 5 [("beta gamma beta", 2), ("alpha beta alpha beta", 1)]
      (by decide) (by decide) (by decide) (by decide)⟩
